import Mathlib

/-
Shallow embedding of the PubMed retrieval / evidence-assembly pipeline of
src/app.py (ED Copilot prototype), with theorems settling the claims about
its specification.

Modelling conventions:
* Python strings are `List Char` (abbreviated `Str`), ASCII-scoped: `str.lower`,
  `str.strip`, `str.split`, the regex classes `\s`, `\w`, `\d`, `[a-z0-9]` and
  `[A-Za-z0-9]` are modelled on their ASCII meaning (all inputs of interest are
  ASCII).
* External HTTP services (NCBI esearch/esummary/efetch, OpenAI completion) are
  modelled as explicit oracle parameters giving the already-parsed payloads;
  a call that raises is an `Except.error`.
* Python dicts built by the code are association lists in insertion order
  (key sets are what the claims inspect, and the code never inserts a
  duplicate key twice with different meaning).
-/

abbrev Str := List Char

/- Python whitespace (`str.split()` / `str.strip()` / regex `\s`), ASCII part:
   space, tab, newline, carriage return, vertical tab, form feed. -/
def pyWS (c : Char) : Bool :=
  c = ' ' || c = '\t' || c = '\n' || c = '\r' || c = Char.ofNat 11 || c = Char.ofNat 12

/- `str.lstrip()` -/
def pyLStrip (s : Str) : Str := s.dropWhile pyWS

/- `str.rstrip()` -/
def pyRStrip (s : Str) : Str := (s.reverse.dropWhile pyWS).reverse

/- `str.strip()` -/
def pyStrip (s : Str) : Str := pyRStrip (pyLStrip s)

/- `str.rstrip(".")` -/
def pyRStripDot (s : Str) : Str := (s.reverse.dropWhile (fun c => c = '.')).reverse

/- `str.lower()` (ASCII) -/
def lowerStr (s : Str) : Str := s.map Char.toLower

/- Maximal runs of characters satisfying `p` (accumulator holds the current
   run reversed).  `runsBy p` is the list of maximal `p`-runs of `s`, in order:
   this is `str.split()` for `p = not whitespace`, `re.findall(r"[A-Za-z0-9]+", s)`
   for `p = ASCII alphanumeric`, and the maximal `\w`-runs for `p = wordChar`. -/
def runsByAcc (p : Char → Bool) : Str → Str → List Str
  | acc, [] => if acc = [] then [] else [acc.reverse]
  | acc, c :: rest =>
    if p c then runsByAcc p (c :: acc) rest
    else if acc = [] then runsByAcc p [] rest
    else acc.reverse :: runsByAcc p [] rest

def runsBy (p : Char → Bool) (s : Str) : List Str := runsByAcc p [] s

/- `str.split()` with no arguments. -/
def pySplit (s : Str) : List Str := runsBy (fun c => !pyWS c) s

/- First-occurrence-preserving de-duplication with an explicit `seen` set:
   the `seen`/`uniq` loop of `make_pubmed_term` and `list(dict.fromkeys(...))`. -/
def dedupeAux : List Str → List Str → List Str
  | _, [] => []
  | seen, t :: ts => if t ∈ seen then dedupeAux seen ts else t :: dedupeAux (t :: seen) ts

/- `sep.join(xs)` -/
def joinSep (sep : Str) : List Str → Str
  | [] => []
  | [x] => x
  | x :: y :: xs => x ++ sep ++ joinSep sep (y :: xs)

/- Regex word character `\w` (ASCII): letters `A-Z` (65-90) and `a-z`
   (97-122), digits `0-9` (48-57), underscore. -/
def wordChar (c : Char) : Bool :=
  (65 ≤ c.toNat && c.toNat ≤ 90) || (97 ≤ c.toNat && c.toNat ≤ 122)
    || (48 ≤ c.toNat && c.toNat ≤ 57) || c = '_'

/- Left word boundary `\b` before a match whose text starts with a word
   character: start of string, or a non-word previous character. -/
def boundaryL : Option Char → Bool
  | none => true
  | some c => !wordChar c

/- Right word boundary `\b` after a match `k` (ending in a word character)
   at the front of `s`: end of string, or a non-word next character. -/
def boundaryR (k : Str) (s : Str) : Bool :=
  match s.drop k.length with
  | [] => true
  | d :: _ => !wordChar d

/- Does `re.sub(rf"\b{k}\b", ...)` match at the current position?  `prev` is
   the character just before the position (none at the start of the string).
   All the keys `k` used by the program consist of word characters only, for
   which `\b` on either side reduces to exactly these boundary checks. -/
def wbMatch (k : Str) (prev : Option Char) (s : Str) : Bool :=
  !k.isEmpty && k.isPrefixOf s && boundaryL prev && boundaryR k s

/- One `re.sub(rf"\b{k}\b", v, s)` pass: scan left to right, replace each
   non-overlapping boundary-delimited occurrence of `k` by `v`, and continue
   after the matched region (the replacement text is not rescanned).  The
   `skip` counter consumes the chars of a region already matched and emitted. -/
def subWBGo (k v : Str) : Nat → Option Char → Str → Str
  | _, _, [] => []
  | skip+1, _, c :: rest => subWBGo k v skip (some c) rest
  | 0, prev, c :: rest =>
    if wbMatch k prev (c :: rest) then v ++ subWBGo k v (k.length - 1) (some c) rest
    else c :: subWBGo k v 0 (some c) rest

def subWB (k v : Str) (s : Str) : Str := subWBGo k v 0 none s

/- The STOPWORDS set of src/app.py. -/
def STOPWORDS : List Str :=
  ["adult".toList, "peds".toList, "pediatric".toList, "initial".toList,
   "management".toList, "workup".toList, "labs".toList, "lab".toList,
   "treatment".toList, "treatments".toList, "criteria".toList, "admission".toList,
   "disposition".toList, "dx".toList, "ddx".toList, "ed".toList, "em".toList,
   "er".toList, "the".toList, "a".toList, "an".toList, "and".toList, "or".toList,
   "to".toList, "for".toList, "of".toList, "with".toList, "without".toList,
   "in".toList, "on".toList, "at".toList, "by".toList, "from".toList, "vs".toList,
   "versus".toList, "suspected".toList, "possible".toList, "patient".toList,
   "patients".toList, "male".toList, "female".toList, "man".toList, "woman".toList,
   "yo".toList, "y/o".toList, "year".toList, "old".toList, "consider".toList,
   "how".toList, "what".toList, "when".toList, "why".toList, "should".toList,
   "could".toList, "would".toList, "can".toList, "do".toList, "does".toList,
   "did".toList, "best".toList, "ways".toList, "way".toList, "manage".toList,
   "treat".toList, "evaluation".toList, "approach".toList]

/- The SYNONYMS table of src/app.py, in source (= dict iteration) order. -/
def SYNONYMS : List (Str × Str) :=
  [("dka".toList, "diabetic ketoacidosis".toList),
   ("pe".toList, "pulmonary embolism".toList),
   ("acs".toList, "acute coronary syndrome".toList),
   ("ich".toList, "intracerebral hemorrhage".toList),
   ("tbi".toList, "traumatic brain injury".toList),
   ("uti".toList, "urinary tract infection".toList),
   ("copd".toList, "chronic obstructive pulmonary disease".toList),
   ("afib".toList, "atrial fibrillation".toList),
   ("rvr".toList, "rapid ventricular response".toList)]

/- The synonym-expansion loop: `for k, v in SYNONYMS.items(): raw = re.sub(...)`. -/
def expandSynonyms (s : Str) : Str :=
  SYNONYMS.foldl (fun acc kv => subWB kv.1 kv.2 acc) s

/- The character class `[a-z0-9]`: `a-z` is 97-122, `0-9` is 48-57. -/
def lowerAlnum (c : Char) : Bool :=
  (97 ≤ c.toNat && c.toNat ≤ 122) || (48 ≤ c.toNat && c.toNat ≤ 57)

def sanitizeChar (c : Char) : Char := if lowerAlnum c || pyWS c then c else ' '

/- `cleaned.split()` of make_pubmed_term, for an input already stripped. -/
def normTokens (q : Str) : List Str :=
  pySplit ((expandSynonyms (lowerStr q)).map sanitizeChar)

/- `tokens = [t for t in cleaned.split() if t and t not in STOPWORDS]` -/
def keptTokens (q : Str) : List Str :=
  (normTokens q).filter (fun t => decide (t ≠ [] ∧ t ∉ STOPWORDS))

/- The key-term computation of make_pubmed_term: de-duplicate preserving
   first occurrence, keep the first 6 (`key = uniq[:6] if uniq else []`). -/
def keyTerms (q0 : Str) : List Str :=
  (dedupeAux [] (keptTokens (pyStrip q0))).take 6

/- make_pubmed_term of src/app.py. -/
def make_pubmed_term (q0 : Str) : Str :=
  let q := pyStrip q0
  if q = [] then []
  else
    let key := keyTerms q0
    if key = [] then q
    else
      let tiab_or := joinSep (" OR ".toList) (key.map (fun t => t ++ "[tiab]".toList))
      let raw_fallback := joinSep [' '] key
      "(".toList ++ tiab_or ++ ") OR (".toList ++ raw_fallback ++ ")".toList

/- The "quoted original question" that the spec's fallback wording promises. -/
def quotedText (q : Str) : Str := '"' :: (q ++ ['"'])

/- Does `pat` occur as a contiguous substring of `s`? -/
def subOccurs (pat : Str) : Str → Bool
  | [] => pat.isEmpty
  | c :: rest => pat.isPrefixOf (c :: rest) || subOccurs pat rest

/- `str.replace(pat, rep)`: all non-overlapping occurrences, left to right;
   `re.sub(r"\[Title/Abstract\]", ...)` is the same operation since the
   pattern is a literal.  Same skip-counter scheme as `subWBGo`. -/
def replaceGo (pat rep : Str) : Nat → Str → Str
  | _, [] => []
  | skip+1, _ :: rest => replaceGo pat rep skip rest
  | 0, c :: rest =>
    if !pat.isEmpty && pat.isPrefixOf (c :: rest) then
      rep ++ replaceGo pat rep (pat.length - 1) rest
    else c :: replaceGo pat rep 0 rest

def replaceAll (pat rep s : Str) : Str := replaceGo pat rep 0 s

/- The candidate list of pubmed_search (for the already-stripped query `q`):
   cooked query, AND→OR variant, field-tag variant, first 8 raw alphanumeric
   words (`re.findall(r"[A-Za-z0-9]+", q)[:8]` joined), raw question. -/
def mkCandidates (q : Str) : List Str :=
  let cooked := make_pubmed_term q
  [cooked,
   replaceAll (" AND ".toList) (" OR ".toList) cooked,
   replaceAll ("[Title/Abstract]".toList) ("[tiab]".toList) cooked,
   joinSep [' '] ((runsBy Char.isAlphanum q).take 8),
   q]

/- The relaxation loop of pubmed_search.  `oracle t` is the parsed
   `esearchresult.idlist` of one external esearch call with term `t` (the
   remaining request parameters, retmax included, are fixed across the loop
   and folded into the oracle).  Returns the identifier list together with
   the trace of terms actually sent to the external service, in order. -/
def searchLoopT (oracle : Str → List Str) : List Str → List Str × List Str
  | [] => ([], [])
  | t :: rest =>
    let t' := pyStrip t
    if t' = [] then searchLoopT oracle rest
    else
      let ids := oracle t'
      if ids = [] then
        let r := searchLoopT oracle rest
        (r.1, t' :: r.2)
      else (ids, [t'])

/- pubmed_search of src/app.py, instrumented with the external-call trace. -/
def pubmed_searchT (term : Str) (oracle : Str → List Str) : List Str × List Str :=
  let q := pyStrip term
  if q = [] then ([], []) else searchLoopT oracle (mkCandidates q)

def pubmed_search (term : Str) (oracle : Str → List Str) : List Str :=
  (pubmed_searchT term oracle).1

/- One record of the parsed esummary payload (`data["result"][pmid]`); a
   missing key and an empty (falsy) record are both modelled as `none`,
   since `if not item: continue` treats them identically.  Field values
   model `item.get(field, "") or ""` (absent/None collapsed to ""). -/
structure SummaryItem where
  title : Str
  fulljournalname : Str
  pubdate : Str

structure ArticleSummary where
  pmid : Str
  title : Str
  journal : Str
  year : Str
  url : Str
deriving DecidableEq

/- One ArticleSummary record as built by the pubmed_summaries loop body:
   `pubdate.split(" ")[0]` is the text before the first literal space. -/
def mkArticleSummary (p : Str) (it : SummaryItem) : ArticleSummary :=
  { pmid := p
    title := pyRStripDot (pyStrip it.title)
    journal := it.fulljournalname
    year := it.pubdate.takeWhile (fun c => c ≠ ' ')
    url := "https://pubmed.ncbi.nlm.nih.gov/".toList ++ p ++ "/".toList }

/- pubmed_summaries of src/app.py.  `resp` is the parsed esummary payload of
   the one batched lookup. -/
def pubmed_summaries (pmids : List Str) (resp : Str → Option SummaryItem) :
    List ArticleSummary :=
  if pmids = [] then []
  else pmids.filterMap (fun p => (resp p).map (mkArticleSummary p))

/- One AbstractText element of the efetch XML: its Label attribute (absent =
   `none`) and its joined inner text (`"".join(a.itertext())`). -/
structure AbsSegment where
  label : Option Str
  txt : Str

/- One PubmedArticle element: `pmidText` models
   `(pmid_el.text or "") if pmid_el is not None else ""`, and `segments`
   the `.//Abstract/AbstractText` elements in document order. -/
structure PMArticle where
  pmidText : Str
  segments : List AbsSegment

/- The abs_parts loop: skip segments whose stripped text is empty, prefix a
   truthy (present and non-empty) label as "label: text". -/
def articleParts (ar : PMArticle) : List Str :=
  ar.segments.filterMap (fun a =>
    let t := pyStrip a.txt
    if t = [] then none
    else some (match a.label with
      | none => t
      | some l => if l = [] then t else l ++ ": ".toList ++ t))

/- pubmed_abstracts of src/app.py.  `articles` is the list of PubmedArticle
   elements parsed from the efetch response.  The returned dict is an
   association list in insertion order; an article contributes a key only
   when its stripped PMID is non-empty and it has at least one non-empty
   abstract segment. -/
def abstractEntry (ar : PMArticle) : Option (Str × Str) :=
  let pmid := pyStrip ar.pmidText
  if pmid = [] then none
  else
    let parts := articleParts ar
    if parts = [] then none
    else some (pmid, joinSep ['\n'] parts)

def pubmed_abstracts (pmids : List Str) (articles : List PMArticle) :
    List (Str × Str) :=
  if pmids = [] then [] else articles.filterMap abstractEntry

/- `abstracts.get(pmid)` with `or ""` applied by the caller. -/
def lookupD (m : List (Str × Str)) (k : Str) : Str :=
  match m.find? (fun e => decide (e.1 = k)) with
  | some e => e.2
  | none => []

/- The per-article metadata line of build_metadata_context. -/
def baseLine (h : ArticleSummary) : Str :=
  "- ".toList ++ h.title ++ " (".toList ++ h.journal ++ ", ".toList ++ h.year
    ++ "). PMID ".toList ++ h.pmid ++ ". ".toList ++ h.url

/- One formatted evidence record: the metadata line, plus — when the looked-up
   stripped abstract is non-empty — the abstract truncated to
   `abstract_chars` characters and right-stripped (`ab[:abstract_chars].rstrip()`). -/
def entryLine (abstracts : List (Str × Str)) (abstract_chars : Nat)
    (h : ArticleSummary) : Str :=
  let ab := pyStrip (lookupD abstracts h.pmid)
  if ab = [] then baseLine h
  else baseLine h ++ "\n  Abstract (truncated): ".toList
    ++ pyRStrip (ab.take abstract_chars)

/- build_metadata_context of src/app.py (defaults: max_items=5,
   abstract_chars=900; `abstracts or {}` is the empty association list). -/
def build_metadata_context (summaries : List ArticleSummary)
    (abstracts : List (Str × Str)) (max_items : Nat) (abstract_chars : Nat) :
    Str × List Str :=
  let use := summaries.take max_items
  let lines := use.map (entryLine abstracts abstract_chars)
  let allowed_pmids := use.map (fun h => h.pmid)
  (if lines = [] then "No PubMed results returned.".toList else joinSep ['\n'] lines,
   allowed_pmids)

/- Maximal runs of regex word characters of `s`.  A match of
   `re.findall(r"\b\d{7,8}\b", s)` must consist of 7 or 8 digits preceded and
   followed by a non-word character or a string edge (no `\b` holds between
   two word characters), hence each match is exactly a maximal word-character
   run that is all digits of length 7 or 8; conversely every such run is
   matched.  The matches are disjoint and reported left to right, so findall
   returns exactly these runs in order. -/
def wordRuns (s : Str) : List Str := runsBy wordChar s

/- `re.findall(r"\b\d{7,8}\b", answer)` -/
def findall78 (s : Str) : List Str :=
  (wordRuns s).filter (fun r => (r.length == 7 || r.length == 8) && r.all Char.isDigit)

/- `pmids_in_answer = list(dict.fromkeys(re.findall(...)))` -/
def pmids_in_answer (answer : Str) : List Str := dedupeAux [] (findall78 answer)

structure ChatMsg where
  role : Str
  content : Str
deriving DecidableEq

/- The evidence-assembly phase of the main interaction block: the
   no-results sentinel, else optionally the abstract fetch for the shown
   identifiers (an uncaught failure when it raises) and the metadata-context
   build with the default abstract budget of 900 characters. -/
def retrievalCtx (retmax : Nat) (include_abstracts : Bool)
    (absSvc : List Str → Except Unit (List PMArticle))
    (summaries : List ArticleSummary) : Except Unit (Str × List Str) :=
  if summaries = [] then .ok ("No PubMed results returned.".toList, [])
  else
    let show_pmids := (summaries.take retmax).map (fun h => h.pmid)
    match (if include_abstracts then absSvc show_pmids else .ok []) with
    | .error _ => .error ()
    | .ok arts =>
      .ok (build_metadata_context summaries (pubmed_abstracts show_pmids arts)
            retmax 900)

/- Outcome of one submitted prompt: a rendered answer (with the extracted
   citation list), a caught generation error rendered as a turn-level error
   message, or an uncaught retrieval exception that aborts the script run. -/
inductive TurnOutcome where
  | answered (answer : Str) (cited : List Str)
  | shownError
  | uncaughtError
deriving DecidableEq

/- The main interaction block of src/app.py (the `if prompt:` block) for one
   submitted prompt.  The user message is appended to the transcript first.
   pubmed_search, pubmed_summaries and pubmed_abstracts run outside the
   try block, so a failure there propagates uncaught out of the script run
   (session state keeps whatever was already written); a generate_answer
   failure is caught by the except and rendered as a turn-level error.
   `searchSvc`, `summSvc`, `absSvc`, `genSvc` model the external calls made
   by the respective helpers, each returning its parsed payload or raising;
   `genSvc` receives the prior-turn window, question, evidence text and
   allowed PMIDs (mode and prompt wording live inside the external call). -/
def mainTurn (messages : List ChatMsg) (prompt : Str) (retmax : Nat)
    (include_abstracts : Bool)
    (searchSvc : Str → Except Unit (List Str))
    (summSvc : List Str → Except Unit (Str → Option SummaryItem))
    (absSvc : List Str → Except Unit (List PMArticle))
    (genSvc : List ChatMsg → Str → Str → List Str → Except Unit Str) :
    List ChatMsg × TurnOutcome :=
  let msgs1 := messages ++ [⟨"user".toList, prompt⟩]
  match searchSvc prompt with
  | .error _ => (msgs1, .uncaughtError)
  | .ok pmids =>
    match summSvc pmids with
    | .error _ => (msgs1, .uncaughtError)
    | .ok resp =>
      match retrievalCtx retmax include_abstracts absSvc (pubmed_summaries pmids resp) with
      | .error _ => (msgs1, .uncaughtError)
      | .ok mc =>
        let prior := (msgs1.drop (msgs1.length - 6)).dropLast
        match genSvc prior prompt mc.1 mc.2 with
        | .error _ => (msgs1, .shownError)
        | .ok answer =>
          (msgs1 ++ [⟨"assistant".toList, answer⟩],
           .answered answer (pmids_in_answer answer))

/- ------------------ helper lemmas: dedupeAux ------------------ -/

theorem dedupeAux_sublist : ∀ (seen l : List Str), List.Sublist (dedupeAux seen l) l
  | _, [] => List.Sublist.slnil
  | seen, t :: ts => by
    simp only [dedupeAux]
    split
    · exact (dedupeAux_sublist seen ts).cons t
    · exact (dedupeAux_sublist (t :: seen) ts).cons₂ t

theorem mem_dedupeAux : ∀ {seen l : List Str} {x : Str},
    x ∈ dedupeAux seen l ↔ x ∈ l ∧ x ∉ seen := by
  intro seen l
  induction l generalizing seen with
  | nil => simp [dedupeAux]
  | cons t ts ih =>
    intro x
    simp only [dedupeAux]
    split
    case isTrue hts =>
      rw [ih]
      simp only [List.mem_cons]
      by_cases hxt : x = t
      · subst hxt
        simp [hts]
      · simp [hxt]
    case isFalse hts =>
      simp only [List.mem_cons, ih]
      by_cases hxt : x = t
      · subst hxt
        simp [hts]
      · simp [hxt]

theorem dedupeAux_nodup : ∀ (seen l : List Str), (dedupeAux seen l).Nodup := by
  intro seen l
  induction l generalizing seen with
  | nil => simp [dedupeAux]
  | cons t ts ih =>
    simp only [dedupeAux]
    split
    · exact ih seen
    · refine List.nodup_cons.2 ⟨fun hc => ?_, ih (t :: seen)⟩
      exact (mem_dedupeAux.1 hc).2 (List.mem_cons_self _ _)

theorem dedupeAux_eq_self : ∀ {seen l : List Str},
    l.Nodup → (∀ x ∈ l, x ∉ seen) → dedupeAux seen l = l := by
  intro seen l
  induction l generalizing seen with
  | nil => intro _ _; rfl
  | cons t ts ih =>
    intro hnd hout
    have hts : t ∉ seen := hout t (List.mem_cons_self _ _)
    simp only [dedupeAux, if_neg hts]
    congr 1
    refine ih (List.nodup_cons.1 hnd).2 (fun x hx hc => ?_)
    rcases List.mem_cons.1 hc with rfl | hc
    · exact (List.nodup_cons.1 hnd).1 hx
    · exact hout x (List.mem_cons_of_mem _ hx) hc

/- ------------------ helper lemmas: characters ------------------ -/

theorem lowerAlnum_spec {c : Char} (h : lowerAlnum c = true) :
    (97 ≤ c.toNat ∧ c.toNat ≤ 122) ∨ (48 ≤ c.toNat ∧ c.toNat ≤ 57) := by
  simpa [lowerAlnum] using h

theorem lowerAlnum_wordChar {c : Char} (h : lowerAlnum c = true) : wordChar c = true := by
  rcases lowerAlnum_spec h with h' | h' <;> simp [wordChar] <;> omega

theorem lowerAlnum_not_pyWS {c : Char} (h : lowerAlnum c = true) : pyWS c = false := by
  rcases hw : pyWS c
  · rfl
  · exfalso
    have hn := lowerAlnum_spec h
    simp only [pyWS, Bool.or_eq_true, decide_eq_true_eq] at hw
    rcases hw with ((((rfl | rfl) | rfl) | rfl) | rfl) | rfl <;> exact absurd hn (by decide)

theorem lowerAlnum_toLower {c : Char} (h : lowerAlnum c = true) :
    c.toLower = c := by
  have hn := lowerAlnum_spec h
  rw [Char.toLower]
  rw [if_neg]
  omega

theorem lowerAlnum_sanitizeChar {c : Char} (h : lowerAlnum c = true) :
    sanitizeChar c = c := by
  simp [sanitizeChar, h]

/- ------------------ helper lemmas: runsBy / joinSep ------------------ -/

theorem runsByAcc_sound (p : Char → Bool) :
    ∀ (s acc : Str), (∀ c ∈ acc, p c = true) →
      ∀ t ∈ runsByAcc p acc s, t ≠ [] ∧ ∀ c ∈ t, p c = true ∧ (c ∈ acc ∨ c ∈ s) := by
  intro s
  induction s with
  | nil =>
    intro acc hacc t ht
    simp only [runsByAcc] at ht
    split at ht
    · simp at ht
    case isFalse hne =>
      rcases List.mem_singleton.1 ht with rfl
      refine ⟨by simpa using hne, fun c hc => ?_⟩
      have hc' := List.mem_reverse.1 hc
      exact ⟨hacc c hc', Or.inl hc'⟩
  | cons a s ih =>
    intro acc hacc t ht
    simp only [runsByAcc] at ht
    split at ht
    case isTrue hp =>
      have hacc' : ∀ c ∈ a :: acc, p c = true := by
        intro c hc
        rcases List.mem_cons.1 hc with rfl | hc
        · exact hp
        · exact hacc c hc
      obtain ⟨h1, h2⟩ := ih (a :: acc) hacc' t ht
      refine ⟨h1, fun c hc => ?_⟩
      obtain ⟨hpc, hm⟩ := h2 c hc
      refine ⟨hpc, ?_⟩
      rcases hm with hm | hm
      · rcases List.mem_cons.1 hm with rfl | hm
        · exact Or.inr (List.mem_cons_self _ _)
        · exact Or.inl hm
      · exact Or.inr (List.mem_cons_of_mem _ hm)
    case isFalse hp =>
      split at ht
      case isTrue hae =>
        obtain ⟨h1, h2⟩ := ih [] (by simp) t ht
        refine ⟨h1, fun c hc => ?_⟩
        obtain ⟨hpc, hm⟩ := h2 c hc
        refine ⟨hpc, ?_⟩
        rcases hm with hm | hm
        · simp at hm
        · exact Or.inr (List.mem_cons_of_mem _ hm)
      case isFalse hae =>
        rcases List.mem_cons.1 ht with rfl | ht
        · refine ⟨by simpa using hae, fun c hc => ?_⟩
          have hc' := List.mem_reverse.1 hc
          exact ⟨hacc c hc', Or.inl hc'⟩
        · obtain ⟨h1, h2⟩ := ih [] (by simp) t ht
          refine ⟨h1, fun c hc => ?_⟩
          obtain ⟨hpc, hm⟩ := h2 c hc
          refine ⟨hpc, ?_⟩
          rcases hm with hm | hm
          · simp at hm
          · exact Or.inr (List.mem_cons_of_mem _ hm)

theorem runsBy_sound (p : Char → Bool) {s : Str} {t : Str} (ht : t ∈ runsBy p s) :
    t ≠ [] ∧ ∀ c ∈ t, p c = true ∧ c ∈ s := by
  obtain ⟨h1, h2⟩ := runsByAcc_sound p s [] (by simp) t ht
  refine ⟨h1, fun c hc => ?_⟩
  obtain ⟨hpc, hm⟩ := h2 c hc
  rcases hm with hm | hm
  · simp at hm
  · exact ⟨hpc, hm⟩

theorem runsByAcc_run (p : Char → Bool) :
    ∀ (u : Str) (acc rest : Str), (∀ c ∈ u, p c = true) →
      runsByAcc p acc (u ++ rest) = runsByAcc p (u.reverse ++ acc) rest := by
  intro u
  induction u with
  | nil => intro acc rest _; simp
  | cons c u' ih =>
    intro acc rest hu
    have hc : p c = true := hu c (List.mem_cons_self _ _)
    simp only [List.cons_append, runsByAcc, hc, if_true, List.append_eq]
    rw [ih (c :: acc) rest (fun d hd => hu d (List.mem_cons_of_mem _ hd))]
    simp

theorem runsBy_joinSep (p : Char → Bool) (w : Char) (hw : p w = false) :
    ∀ ts : List Str, (∀ t ∈ ts, t ≠ [] ∧ ∀ c ∈ t, p c = true) →
      runsBy p (joinSep [w] ts) = ts := by
  intro ts
  induction ts with
  | nil => intro _; rfl
  | cons t rest ih =>
    intro h
    obtain ⟨ht1, ht2⟩ := h t (List.mem_cons_self _ _)
    cases rest with
    | nil =>
      show runsByAcc p [] (joinSep [w] [t]) = [t]
      have : joinSep [w] [t] = t ++ [] := by simp [joinSep]
      rw [this, runsByAcc_run p t [] [] ht2]
      simp only [runsByAcc, List.append_nil]
      rw [if_neg (by simpa using ht1)]
      simp
    | cons y xs =>
      show runsByAcc p [] (joinSep [w] (t :: y :: xs)) = t :: y :: xs
      have hj : joinSep [w] (t :: y :: xs) = t ++ (w :: joinSep [w] (y :: xs)) := by
        simp [joinSep]
      rw [hj, runsByAcc_run p t [] _ ht2]
      simp only [List.append_nil, runsByAcc, hw]
      rw [if_neg (by simp), if_neg (by simpa using ht1)]
      rw [List.reverse_reverse]
      congr 1
      exact ih (fun u hu => h u (List.mem_cons_of_mem _ hu))

theorem mem_joinSep {c : Char} (sep : Str) :
    ∀ ts : List Str, c ∈ joinSep sep ts → c ∈ sep ∨ ∃ t ∈ ts, c ∈ t := by
  intro ts
  induction ts with
  | nil => intro h; simp [joinSep] at h
  | cons t rest ih =>
    intro h
    cases rest with
    | nil =>
      refine Or.inr ⟨t, List.mem_cons_self _ _, ?_⟩
      simpa [joinSep] using h
    | cons y xs =>
      have hj : joinSep sep (t :: y :: xs) = t ++ (sep ++ joinSep sep (y :: xs)) := by
        simp [joinSep]
      rw [hj] at h
      rcases List.mem_append.1 h with h | h
      · exact Or.inr ⟨t, List.mem_cons_self _ _, h⟩
      · rcases List.mem_append.1 h with h | h
        · exact Or.inl h
        · rcases ih h with h | ⟨u, hu, hc⟩
          · exact Or.inl h
          · exact Or.inr ⟨u, List.mem_cons_of_mem _ hu, hc⟩

theorem joinSep_head (w : Char) :
    ∀ (t : Str) (ts : List Str), t ≠ [] →
      ∃ c tl, joinSep [w] (t :: ts) = c :: tl ∧ c ∈ t := by
  intro t ts ht
  cases t with
  | nil => exact absurd rfl ht
  | cons c t' =>
    cases ts with
    | nil => exact ⟨c, t', rfl, List.mem_cons_self _ _⟩
    | cons y xs =>
      refine ⟨c, t' ++ (w :: joinSep [w] (y :: xs)), ?_, List.mem_cons_self _ _⟩
      simp [joinSep]

theorem joinSep_reverse_head (w : Char) :
    ∀ ts : List Str, ts ≠ [] → (∀ t ∈ ts, t ≠ []) →
      ∃ c tl, (joinSep [w] ts).reverse = c :: tl ∧ ∃ t ∈ ts, c ∈ t := by
  intro ts
  induction ts with
  | nil => intro h _; exact absurd rfl h
  | cons t rest ih =>
    intro _ hall
    cases rest with
    | nil =>
      have ht : t ≠ [] := hall t (List.mem_cons_self _ _)
      cases hr : t.reverse with
      | nil => exact absurd (by simpa using hr) ht
      | cons c tl =>
        refine ⟨c, tl, by simpa [joinSep] using hr, t, List.mem_cons_self _ _, ?_⟩
        have : c ∈ t.reverse := by rw [hr]; exact List.mem_cons_self _ _
        exact List.mem_reverse.1 this
    | cons y xs =>
      obtain ⟨c, tl, hrev, u, hu, hc⟩ :=
        ih (by simp) (fun v hv => hall v (List.mem_cons_of_mem _ hv))
      have hj : joinSep [w] (t :: y :: xs) = t ++ (w :: joinSep [w] (y :: xs)) := by
        simp [joinSep]
      refine ⟨c, tl ++ w :: t.reverse, ?_, u, List.mem_cons_of_mem _ hu, hc⟩
      rw [hj, List.reverse_append, List.reverse_cons, List.append_assoc, hrev]
      simp

theorem pyStrip_eq_self {s : Str}
    (h1 : ∀ c tl, s = c :: tl → pyWS c = false)
    (h2 : ∀ c tl, s.reverse = c :: tl → pyWS c = false) : pyStrip s = s := by
  cases s with
  | nil => rfl
  | cons a s' =>
    have hl : pyLStrip (a :: s') = a :: s' := by
      simp [pyLStrip, List.dropWhile_cons, h1 a s' rfl]
    show pyRStrip (pyLStrip (a :: s')) = a :: s'
    rw [hl]
    cases hr : (a :: s').reverse with
    | nil => simp at hr
    | cons c tl =>
      show ((a :: s').reverse.dropWhile pyWS).reverse = a :: s'
      rw [hr, List.dropWhile_cons, h2 c tl hr]
      simp [← hr]

/- ------------------ helper lemmas: subWB on token strings ------------------ -/

theorem isPrefixOf_exists : ∀ {l s : Str}, l.isPrefixOf s = true → ∃ r, l ++ r = s := by
  intro l
  induction l with
  | nil => intro s _; exact ⟨s, rfl⟩
  | cons a l' ih =>
    intro s h
    cases s with
    | nil => simp [List.isPrefixOf] at h
    | cons b s' =>
      simp only [List.isPrefixOf, Bool.and_eq_true, beq_iff_eq] at h
      obtain ⟨rfl, h2⟩ := h
      obtain ⟨r, hr⟩ := ih h2
      exact ⟨r, by rw [List.cons_append, hr]⟩

/- No `\b k \b` match can start at the first character of a word-character
   token `t ≠ k` that is followed by a non-word character or the string end:
   a shorter `k` would be followed by a word character (no right boundary), a
   longer `k` would have to contain the non-word character after `t`. -/
theorem wbMatch_tok_false (k : Str) (hkw : ∀ c ∈ k, wordChar c = true)
    (t : Str) (prev : Option Char) (tail : Str)
    (htw : ∀ c ∈ t, wordChar c = true) (htk : t ≠ k)
    (htail : tail = [] ∨ ∃ w tl, tail = w :: tl ∧ wordChar w = false) :
    wbMatch k prev (t ++ tail) = false := by
  rcases hM : wbMatch k prev (t ++ tail)
  · rfl
  exfalso
  have hM' := hM
  simp only [wbMatch, Bool.and_eq_true] at hM'
  obtain ⟨⟨⟨_, hpre⟩, _⟩, hbr⟩ := hM'
  obtain ⟨r, hr⟩ := isPrefixOf_exists hpre
  rcases List.append_eq_append_iff.1 hr with ⟨a', ha1, ha2⟩ | ⟨c', hc1, hc2⟩
  · cases a' with
    | nil => exact htk (by simpa using ha1)
    | cons d a'' =>
      have hdrop : (t ++ tail).drop k.length = d :: (a'' ++ tail) := by
        rw [ha1, List.append_assoc]
        rw [List.drop_left]
        simp
      have hdw : wordChar d = true := by
        refine htw d ?_
        rw [ha1]
        exact List.mem_append.2 (Or.inr (List.mem_cons_self _ _))
      rw [boundaryR, hdrop] at hbr
      simp [hdw] at hbr
  · cases c' with
    | nil => exact htk (by simpa using hc1.symm)
    | cons w c'' =>
      have hww : wordChar w = true := by
        refine hkw w ?_
        rw [hc1]
        exact List.mem_append.2 (Or.inr (List.mem_cons_self _ _))
      rcases htail with rfl | ⟨w0, tl, htl, hw0⟩
      · simp at hc2
      · rw [htl] at hc2
        rw [List.cons_append] at hc2
        have : w0 = w := (List.cons_eq_cons.1 hc2).1
        rw [this] at hw0
        rw [hww] at hw0
        exact absurd hw0 (by decide)

theorem subWBGo_inword (k v : Str) :
    ∀ (u : Str) (pc : Char) (tail : Str), wordChar pc = true →
      (∀ c ∈ u, wordChar c = true) →
      subWBGo k v 0 (some pc) (u ++ tail)
        = u ++ subWBGo k v 0 (some (u.getLastD pc)) tail := by
  intro u
  induction u with
  | nil => intro pc tail _ _; simp [List.getLastD]
  | cons c u' ih =>
    intro pc tail hpc hu
    have hc : wordChar c = true := hu c (List.mem_cons_self _ _)
    have hmatch : wbMatch k (some pc) (c :: (u' ++ tail)) = false := by
      simp [wbMatch, boundaryL, hpc]
    simp only [List.cons_append, subWBGo, List.append_eq, hmatch, Bool.false_eq_true, if_false]
    rw [ih c tail hc (fun d hd => hu d (List.mem_cons_of_mem _ hd))]
    rw [List.getLastD_cons]

theorem subWBGo_tok (k v : Str) (hkw : ∀ c ∈ k, wordChar c = true)
    (t : Str) (prev : Option Char) (tail : Str)
    (ht : t ≠ []) (htw : ∀ c ∈ t, wordChar c = true) (htk : t ≠ k)
    (htail : tail = [] ∨ ∃ w tl, tail = w :: tl ∧ wordChar w = false) :
    subWBGo k v 0 prev (t ++ tail)
      = t ++ subWBGo k v 0 (some (t.getLastD ' ')) tail := by
  cases t with
  | nil => exact absurd rfl ht
  | cons c t' =>
    have hm := wbMatch_tok_false k hkw (c :: t') prev tail htw htk htail
    have hc : wordChar c = true := htw c (List.mem_cons_self _ _)
    rw [List.cons_append] at hm
    simp only [List.cons_append, subWBGo, List.append_eq, hm, Bool.false_eq_true, if_false]
    rw [subWBGo_inword k v t' c tail hc (fun d hd => htw d (List.mem_cons_of_mem _ hd))]
    rw [List.getLastD_cons]

theorem subWBGo_joinSep (k v : Str) (hk : k ≠ []) (hkw : ∀ c ∈ k, wordChar c = true) :
    ∀ (ts : List Str) (prev : Option Char),
      (∀ t ∈ ts, t ≠ [] ∧ (∀ c ∈ t, wordChar c = true) ∧ t ≠ k) →
      subWBGo k v 0 prev (joinSep [' '] ts) = joinSep [' '] ts := by
  intro ts
  induction ts with
  | nil => intro prev _; rfl
  | cons t rest ih =>
    intro prev h
    obtain ⟨ht1, ht2, ht3⟩ := h t (List.mem_cons_self _ _)
    cases rest with
    | nil =>
      have hj : joinSep [' '] [t] = t ++ [] := by simp [joinSep]
      rw [hj, subWBGo_tok k v hkw t prev [] ht1 ht2 ht3 (Or.inl rfl)]
      simp [subWBGo]
    | cons y xs =>
      have hj : joinSep [' '] (t :: y :: xs) = t ++ (' ' :: joinSep [' '] (y :: xs)) := by
        simp [joinSep]
      rw [hj, subWBGo_tok k v hkw t prev _ ht1 ht2 ht3
        (Or.inr ⟨' ', joinSep [' '] (y :: xs), rfl, by decide⟩)]
      congr 1
      have hnm : wbMatch k (some (t.getLastD ' '))
          (' ' :: joinSep [' '] (y :: xs)) = false := by
        cases k with
        | nil => exact absurd rfl hk
        | cons kc ktl =>
          have hkc : wordChar kc = true := hkw kc (List.mem_cons_self _ _)
          have hne : kc ≠ ' ' := by
            intro h'
            rw [h'] at hkc
            exact absurd hkc (by decide)
          have : (kc == ' ') = false := beq_eq_false_iff_ne.2 hne
          simp [wbMatch, List.isPrefixOf, this]
      simp only [subWBGo, hnm, Bool.false_eq_true, if_false]
      congr 1
      exact ih (some ' ') (fun u hu => h u (List.mem_cons_of_mem _ hu))

theorem foldl_subWB_joinSep (ts : List Str) :
    ∀ ps : List (Str × Str),
      (∀ kv ∈ ps, kv.1 ≠ [] ∧ ∀ c ∈ kv.1, wordChar c = true) →
      (∀ t ∈ ts, t ≠ [] ∧ (∀ c ∈ t, wordChar c = true) ∧ ∀ kv ∈ ps, t ≠ kv.1) →
      ps.foldl (fun acc kv => subWB kv.1 kv.2 acc) (joinSep [' '] ts)
        = joinSep [' '] ts := by
  intro ps
  induction ps with
  | nil => intro _ _; rfl
  | cons kv ps ih =>
    intro hks hts
    simp only [List.foldl_cons]
    obtain ⟨hk1, hk2⟩ := hks kv (List.mem_cons_self _ _)
    have hstep : subWB kv.1 kv.2 (joinSep [' '] ts) = joinSep [' '] ts :=
      subWBGo_joinSep kv.1 kv.2 hk1 hk2 ts none
        (fun t htm => ⟨(hts t htm).1, (hts t htm).2.1,
          (hts t htm).2.2 kv (List.mem_cons_self _ _)⟩)
    rw [hstep]
    exact ih (fun kv' h' => hks kv' (List.mem_cons_of_mem _ h'))
      (fun t htm => ⟨(hts t htm).1, (hts t htm).2.1,
        fun kv' h' => (hts t htm).2.2 kv' (List.mem_cons_of_mem _ h')⟩)

theorem expandSynonyms_joinSep (ts : List Str)
    (h : ∀ t ∈ ts, t ≠ [] ∧ (∀ c ∈ t, wordChar c = true)
          ∧ ∀ kv ∈ SYNONYMS, t ≠ kv.1) :
    expandSynonyms (joinSep [' '] ts) = joinSep [' '] ts :=
  foldl_subWB_joinSep ts SYNONYMS (by decide) h

/- ------------------ helper lemmas: key-term facts ------------------ -/

theorem map_id_of_mem {f : Char → Char} :
    ∀ {s : Str}, (∀ c ∈ s, f c = c) → s.map f = s := by
  intro s
  induction s with
  | nil => intro _; rfl
  | cons c s' ih =>
    intro h
    simp only [List.map_cons]
    rw [h c (List.mem_cons_self _ _), ih (fun d hd => h d (List.mem_cons_of_mem _ hd))]

/- Every extracted key term is a non-empty `[a-z0-9]` word outside the
   stopword set. -/
theorem keyTerms_facts (q0 : Str) :
    ∀ t ∈ keyTerms q0,
      t ≠ [] ∧ (∀ c ∈ t, lowerAlnum c = true) ∧ t ∉ STOPWORDS := by
  intro t ht
  have ht1 : t ∈ dedupeAux [] (keptTokens (pyStrip q0)) := List.take_subset _ _ ht
  have ht2 : t ∈ keptTokens (pyStrip q0) := (mem_dedupeAux.1 ht1).1
  obtain ⟨htn, hprop⟩ := List.mem_filter.1 ht2
  obtain ⟨hne, hnsw⟩ := of_decide_eq_true hprop
  have htn' : t ∈ runsBy (fun c => !pyWS c)
      ((expandSynonyms (lowerStr (pyStrip q0))).map sanitizeChar) := htn
  obtain ⟨_, hsound⟩ := runsBy_sound (fun c => !pyWS c) htn'
  refine ⟨hne, fun c hc => ?_, hnsw⟩
  obtain ⟨hnp, hmem⟩ := hsound c hc
  obtain ⟨d, _, hd⟩ := List.mem_map.1 hmem
  have hcd : c = sanitizeChar d := hd.symm
  rw [sanitizeChar] at hcd
  split at hcd
  case isTrue h1 =>
    subst hcd
    simp only [Bool.or_eq_true] at h1
    rcases h1 with h2 | h2
    · exact h2
    · rw [h2] at hnp
      exact absurd hnp (by decide)
  case isFalse h1 =>
    subst hcd
    exact absurd hnp (by decide)

theorem keyTerms_nodup (q0 : Str) : (keyTerms q0).Nodup :=
  (List.take_sublist 6 _).nodup (dedupeAux_nodup [] _)

theorem keyTerms_length_le (q0 : Str) : (keyTerms q0).length ≤ 6 :=
  List.length_take_le 6 _

/- ------------------ Claim C8 ------------------ -/

/-- Claim C8 (amended): for every input string whose extracted key terms
contain no abbreviation-table key, applying the normalizer's key-term
computation to the whitespace-join of its own extracted key terms yields the
same key-term list (hence the same key-term set): stopwords are already
removed, abbreviations already expanded, duplicates already dropped.  The
hypothesis is forced by the counterexample: a key term equal to an
abbreviation key (reachable only via `\w`-boundary quirks such as
underscores, e.g. input "_pe_") gets expanded on the second pass. -/
theorem C8_keyTerms_idempotent (q0 : Str)
    (hsyn : ∀ t ∈ keyTerms q0, ∀ kv ∈ SYNONYMS, t ≠ kv.1) :
    keyTerms (joinSep [' '] (keyTerms q0)) = keyTerms q0 := by
  have hfacts := keyTerms_facts q0
  by_cases hne : keyTerms q0 = []
  · rw [hne]
    decide
  · have hstrip : pyStrip (joinSep [' '] (keyTerms q0)) = joinSep [' '] (keyTerms q0) := by
      apply pyStrip_eq_self
      · intro c tl hJ
        cases hteq : keyTerms q0 with
        | nil => exact absurd hteq hne
        | cons t rest =>
          obtain ⟨c', tl', hJ', hc'⟩ :=
            joinSep_head ' ' t rest (hfacts t (by rw [hteq]; exact List.mem_cons_self _ _)).1
          rw [hteq, hJ'] at hJ
          obtain ⟨heq, -⟩ := List.cons_eq_cons.1 hJ
          rw [← heq]
          exact lowerAlnum_not_pyWS
            ((hfacts t (by rw [hteq]; exact List.mem_cons_self _ _)).2.1 c' hc')
      · intro c tl hJ
        obtain ⟨c', tl', hJ', t, htt, hc'⟩ :=
          joinSep_reverse_head ' ' (keyTerms q0) hne (fun t htt => (hfacts t htt).1)
        rw [hJ'] at hJ
        obtain ⟨heq, -⟩ := List.cons_eq_cons.1 hJ
        rw [← heq]
        exact lowerAlnum_not_pyWS ((hfacts t htt).2.1 c' hc')
    have hlower : lowerStr (joinSep [' '] (keyTerms q0)) = joinSep [' '] (keyTerms q0) := by
      apply map_id_of_mem
      intro c hc
      rcases mem_joinSep [' '] (keyTerms q0) hc with hs | ⟨t, htt, hct⟩
      · rcases List.mem_singleton.1 hs with rfl
        decide
      · exact lowerAlnum_toLower ((hfacts t htt).2.1 c hct)
    have hexp : expandSynonyms (joinSep [' '] (keyTerms q0)) = joinSep [' '] (keyTerms q0) := by
      apply expandSynonyms_joinSep
      intro t htt
      obtain ⟨h1, h2, -⟩ := hfacts t htt
      exact ⟨h1, fun c hc => lowerAlnum_wordChar (h2 c hc), hsyn t htt⟩
    have hsan : (joinSep [' '] (keyTerms q0)).map sanitizeChar = joinSep [' '] (keyTerms q0) := by
      apply map_id_of_mem
      intro c hc
      rcases mem_joinSep [' '] (keyTerms q0) hc with hs | ⟨t, htt, hct⟩
      · rcases List.mem_singleton.1 hs with rfl
        decide
      · exact lowerAlnum_sanitizeChar ((hfacts t htt).2.1 c hct)
    have hsplit : pySplit (joinSep [' '] (keyTerms q0)) = keyTerms q0 := by
      apply runsBy_joinSep _ ' ' (by decide)
      intro t htt
      obtain ⟨h1, h2, -⟩ := hfacts t htt
      refine ⟨h1, fun c hc => ?_⟩
      rw [lowerAlnum_not_pyWS (h2 c hc)]
      rfl
    have hkept : keptTokens (joinSep [' '] (keyTerms q0)) = keyTerms q0 := by
      show (pySplit ((expandSynonyms (lowerStr (joinSep [' '] (keyTerms q0)))).map
        sanitizeChar)).filter _ = keyTerms q0
      rw [hlower, hexp, hsan, hsplit]
      apply List.filter_eq_self.2
      intro t htt
      obtain ⟨h1, -, h3⟩ := hfacts t htt
      exact decide_eq_true ⟨h1, h3⟩
    show (dedupeAux [] (keptTokens (pyStrip (joinSep [' '] (keyTerms q0))))).take 6
        = keyTerms q0
    rw [hstrip, hkept]
    rw [dedupeAux_eq_self (keyTerms_nodup q0) (by simp)]
    exact List.take_of_length_le (keyTerms_length_le q0)

/-- Claim C8 counterexample: the claim as stated fails on the input "_pe_".
Its extracted key-term list is ["pe"] (the underscore is a regex word
character, so the whole-word substitution of "pe" does not fire, while the
cleaning step later replaces the underscores with spaces); re-normalizing the
join "pe" expands the now-standalone abbreviation to
["pulmonary", "embolism"], a different key-term set. -/
theorem C8_counterexample :
    keyTerms ("_pe_".toList) = ["pe".toList]
    ∧ keyTerms (joinSep [' '] (keyTerms ("_pe_".toList)))
        = ["pulmonary".toList, "embolism".toList]
    ∧ "pe".toList ∈ keyTerms ("_pe_".toList)
    ∧ "pe".toList ∉ keyTerms (joinSep [' '] (keyTerms ("_pe_".toList)))
    ∧ keyTerms (joinSep [' '] (keyTerms ("_pe_".toList))) ≠ keyTerms ("_pe_".toList) := by
  decide

/-- Witness for the amended Claim C8 theorem at the concrete question
"chest pain troponin": its key terms avoid every abbreviation key, and
re-normalizing their join reproduces them. -/
theorem C8_witness :
    (∀ t ∈ keyTerms ("chest pain troponin".toList), ∀ kv ∈ SYNONYMS, t ≠ kv.1)
    ∧ keyTerms (joinSep [' '] (keyTerms ("chest pain troponin".toList)))
        = keyTerms ("chest pain troponin".toList) :=
  ⟨by decide, C8_keyTerms_idempotent ("chest pain troponin".toList) (by decide)⟩

/- ------------------ helper lemmas: assorted ------------------ -/

theorem pyRStrip_length_le (l : Str) : (pyRStrip l).length ≤ l.length := by
  rw [pyRStrip, List.length_reverse]
  calc (l.reverse.dropWhile pyWS).length
      ≤ l.reverse.length := (List.dropWhile_sublist pyWS).length_le
    _ = l.length := List.length_reverse l

theorem filterMap_mkArticleSummary_pmids (resp : Str → Option SummaryItem) :
    ∀ ps : List Str,
      (ps.filterMap (fun p => (resp p).map (mkArticleSummary p))).map (fun s => s.pmid)
        = ps.filter (fun p => (resp p).isSome) := by
  intro ps
  induction ps with
  | nil => rfl
  | cons p ps ih =>
    simp only [List.filterMap_cons, List.filter_cons]
    cases hr : resp p with
    | none => simpa [hr] using ih
    | some it => simp [hr, ih, mkArticleSummary]

theorem abstractEntry_eq_some {ar : PMArticle} {e : Str × Str} :
    abstractEntry ar = some e
      ↔ pyStrip ar.pmidText ≠ [] ∧ articleParts ar ≠ []
        ∧ e = (pyStrip ar.pmidText, joinSep ['\n'] (articleParts ar)) := by
  rw [abstractEntry]
  by_cases h1 : pyStrip ar.pmidText = []
  · simp [h1]
  · by_cases h2 : articleParts ar = []
    · simp [h1, h2]
    · simp [h1, h2, eq_comm]

/- ------------------ Claim C1 ------------------ -/

/-- Claim C1 counterexample: the claim as stated fails: for the requested
identifier list ["1234567"] and a response whose article "1234567" has no
abstract segments, pubmed_abstracts returns the empty mapping — the
requested identifier is not a key at all, rather than a key mapped to the
empty string. -/
theorem C1_counterexample :
    pubmed_abstracts ["1234567".toList] [⟨"1234567".toList, []⟩] = []
    ∧ "1234567".toList ∈ ["1234567".toList]
    ∧ "1234567".toList
        ∉ (pubmed_abstracts ["1234567".toList] [⟨"1234567".toList, []⟩]).map Prod.fst := by
  decide

/-- Claim C1 (amended): for a non-empty request, the mapping returned by
pubmed_abstracts has as keys exactly the stripped, non-empty identifiers of
those response articles having at least one non-empty abstract segment;
an identifier whose article has no abstract segments (or which is absent
from the response) is omitted from the mapping rather than mapped to the
empty string, and the requested identifier list itself contributes no
keys. -/
theorem C1_abstract_keys (pmids : List Str) (articles : List PMArticle)
    (hne : pmids ≠ []) (p : Str) :
    p ∈ (pubmed_abstracts pmids articles).map Prod.fst
      ↔ ∃ ar ∈ articles, pyStrip ar.pmidText = p ∧ p ≠ [] ∧ articleParts ar ≠ [] := by
  rw [pubmed_abstracts, if_neg hne]
  constructor
  · intro hp
    obtain ⟨a, hmem, hfst⟩ := List.mem_map.1 hp
    obtain ⟨ar, har, hsome⟩ := List.mem_filterMap.1 hmem
    obtain ⟨h1, h2, he⟩ := abstractEntry_eq_some.1 hsome
    refine ⟨ar, har, ?_, ?_, h2⟩
    · rw [← hfst, he]
    · rw [← hfst, he]
      exact h1
  · rintro ⟨ar, har, hpe, hpne, hparts⟩
    apply List.mem_map.2
    refine ⟨(p, joinSep ['\n'] (articleParts ar)), ?_, rfl⟩
    apply List.mem_filterMap.2
    refine ⟨ar, har, abstractEntry_eq_some.2 ⟨?_, hparts, ?_⟩⟩
    · rw [hpe]
      exact hpne
    · rw [hpe]

/-- Witness for the amended Claim C1 theorem: a request for "1234567" whose
response article has one unlabeled non-empty segment; the key set
characterization holds at p = "1234567". -/
theorem C1_witness :
    (["1234567".toList] ≠ ([] : List Str))
    ∧ ("1234567".toList
        ∈ (pubmed_abstracts ["1234567".toList]
            [⟨"1234567".toList, [⟨none, "some text".toList⟩]⟩]).map Prod.fst
      ↔ ∃ ar ∈ [(⟨"1234567".toList, [⟨none, "some text".toList⟩]⟩ : PMArticle)],
          pyStrip ar.pmidText = "1234567".toList
          ∧ "1234567".toList ≠ [] ∧ articleParts ar ≠ []) :=
  ⟨by decide,
   C1_abstract_keys ["1234567".toList]
     [⟨"1234567".toList, [⟨none, "some text".toList⟩]⟩] (by decide) ("1234567".toList)⟩

/- ------------------ Claim C2 ------------------ -/

/-- Claim C2: for every summary sequence, abstract map, maxItems and
maxAbstractChars, the AllowedCitationSet returned by build_metadata_context
is exactly the identifiers of the first maxItems summaries, in selection
order, and it is a sublist of the input summaries' identifier sequence — no
identifier absent from the input can appear. -/
theorem C2_allowed_pmids (summaries : List ArticleSummary)
    (abstracts : List (Str × Str)) (max_items abstract_chars : Nat) :
    (build_metadata_context summaries abstracts max_items abstract_chars).2
      = (summaries.take max_items).map (fun h => h.pmid)
    ∧ List.Sublist
        ((build_metadata_context summaries abstracts max_items abstract_chars).2)
        (summaries.map (fun h => h.pmid)) := by
  refine ⟨rfl, ?_⟩
  show List.Sublist ((summaries.take max_items).map (fun h => h.pmid)) _
  exact (List.take_sublist _ _).map _

/- ------------------ Claim C3 ------------------ -/

/-- Claim C3 counterexample: the claim as stated fails: on the all-stopword
input "the a an" the normalizer returns the original question text verbatim
and unquoted — it is not the quoted question text, and contains no quote
character at all (the code's own comment says full-question quoting is
deliberately avoided). -/
theorem C3_counterexample :
    make_pubmed_term ("the a an".toList) = "the a an".toList
    ∧ make_pubmed_term ("the a an".toList) ≠ quotedText ("the a an".toList)
    ∧ '"' ∈ quotedText ("the a an".toList)
    ∧ '"' ∉ make_pubmed_term ("the a an".toList) := by
  decide

/-- Claim C3 (amended): for every input with non-blank trimmed text all of
whose tokens are stopwords (so no key terms survive filtering),
make_pubmed_term returns the trimmed original question text verbatim — with
no quoting applied — and never an empty query. -/
theorem C3_stopword_fallback (q0 : Str)
    (hq : pyStrip q0 ≠ [])
    (hsw : ∀ t ∈ normTokens (pyStrip q0), t ∈ STOPWORDS) :
    make_pubmed_term q0 = pyStrip q0 ∧ make_pubmed_term q0 ≠ [] := by
  have hkept : keptTokens (pyStrip q0) = [] := by
    apply List.filter_eq_nil_iff.2
    intro t ht hdec
    obtain ⟨-, hnsw⟩ := of_decide_eq_true hdec
    exact hnsw (hsw t ht)
  have hkey : keyTerms q0 = [] := by
    rw [keyTerms, hkept]
    rfl
  have hmain : make_pubmed_term q0 = pyStrip q0 := by
    simp [make_pubmed_term, hkey, hq]
  refine ⟨hmain, ?_⟩
  rw [hmain]
  exact hq

/-- Witness for the amended Claim C3 theorem at the all-stopword input
"the a an". -/
theorem C3_witness :
    (pyStrip ("the a an".toList) ≠ []
      ∧ ∀ t ∈ normTokens (pyStrip ("the a an".toList)), t ∈ STOPWORDS)
    ∧ (make_pubmed_term ("the a an".toList) = pyStrip ("the a an".toList)
      ∧ make_pubmed_term ("the a an".toList) ≠ []) :=
  ⟨by decide, C3_stopword_fallback ("the a an".toList) (by decide) (by decide)⟩

/- ------------------ Claim C4 ------------------ -/

/-- Claim C4 counterexample: the claim as stated fails: truncating a
10-character abstract to maxAbstractChars = 5 emits the bare truncated text
with no ellipsis marker appended — the evidence text contains neither "..."
nor an ellipsis character, even though truncation occurred. -/
theorem C4_counterexample :
    (build_metadata_context
        [⟨"1234567".toList, "T".toList, "J".toList, "2024".toList, "U".toList⟩]
        [("1234567".toList, "aaaaaaaaaa".toList)] 5 5).1
      = "- T (J, 2024). PMID 1234567. U\n  Abstract (truncated): aaaaa".toList
    ∧ subOccurs ("...".toList)
        ((build_metadata_context
          [⟨"1234567".toList, "T".toList, "J".toList, "2024".toList, "U".toList⟩]
          [("1234567".toList, "aaaaaaaaaa".toList)] 5 5).1) = false
    ∧ '…' ∉ (build_metadata_context
          [⟨"1234567".toList, "T".toList, "J".toList, "2024".toList, "U".toList⟩]
          [("1234567".toList, "aaaaaaaaaa".toList)] 5 5).1
    ∧ 5 < ("aaaaaaaaaa".toList).length := by
  decide

/-- Claim C4 (amended): for every assembled evidence record whose identifier
has a non-empty (stripped) abstract, build_metadata_context emits the record
with the abstract truncated to the first maxAbstractChars characters and then
right-stripped; no ellipsis marker is appended, and the formatted abstract
length is at most the configured max (hence a fortiori at most the max plus
the length of any ellipsis marker). -/
theorem C4_truncation (summaries : List ArticleSummary)
    (abstracts : List (Str × Str)) (max_items abstract_chars : Nat)
    (h : ArticleSummary) (hmem : h ∈ summaries.take max_items)
    (hab : pyStrip (lookupD abstracts h.pmid) ≠ []) :
    (build_metadata_context summaries abstracts max_items abstract_chars).1
      = joinSep ['\n']
          ((summaries.take max_items).map (entryLine abstracts abstract_chars))
    ∧ entryLine abstracts abstract_chars h
      = baseLine h ++ "\n  Abstract (truncated): ".toList
          ++ pyRStrip ((pyStrip (lookupD abstracts h.pmid)).take abstract_chars)
    ∧ (pyRStrip ((pyStrip (lookupD abstracts h.pmid)).take abstract_chars)).length
        ≤ abstract_chars := by
  refine ⟨?_, ?_, ?_⟩
  · show (if (summaries.take max_items).map (entryLine abstracts abstract_chars) = []
        then "No PubMed results returned.".toList
        else joinSep ['\n']
          ((summaries.take max_items).map (entryLine abstracts abstract_chars))) = _
    rw [if_neg]
    simp only [ne_eq, List.map_eq_nil_iff]
    exact List.ne_nil_of_mem hmem
  · show (if pyStrip (lookupD abstracts h.pmid) = [] then baseLine h
        else baseLine h ++ "\n  Abstract (truncated): ".toList
          ++ pyRStrip ((pyStrip (lookupD abstracts h.pmid)).take abstract_chars)) = _
    rw [if_neg hab]
  · calc (pyRStrip ((pyStrip (lookupD abstracts h.pmid)).take abstract_chars)).length
        ≤ ((pyStrip (lookupD abstracts h.pmid)).take abstract_chars).length :=
          pyRStrip_length_le _
    _ ≤ abstract_chars := List.length_take_le _ _

/-- Witness for the amended Claim C4 theorem at a concrete record with a
10-character abstract and a 5-character budget: the formatted abstract
length is within the budget. -/
theorem C4_witness :
    ((⟨"1234567".toList, "T".toList, "J".toList, "2024".toList, "U".toList⟩
        : ArticleSummary)
      ∈ ([⟨"1234567".toList, "T".toList, "J".toList, "2024".toList, "U".toList⟩]
          : List ArticleSummary).take 5)
    ∧ (pyRStrip ((pyStrip (lookupD [("1234567".toList, "aaaaaaaaaa".toList)]
        ((⟨"1234567".toList, "T".toList, "J".toList, "2024".toList, "U".toList⟩
          : ArticleSummary).pmid))).take 5)).length ≤ 5 :=
  ⟨by decide,
   (C4_truncation
     [⟨"1234567".toList, "T".toList, "J".toList, "2024".toList, "U".toList⟩]
     [("1234567".toList, "aaaaaaaaaa".toList)] 5 5
     ⟨"1234567".toList, "T".toList, "J".toList, "2024".toList, "U".toList⟩
     (by decide) (by decide)).2.2⟩

/- ------------------ Claim C5 ------------------ -/

/-- Claim C5 counterexample: the claim as stated fails: for the query "?"
(no alphanumeric characters) the raw-keyword candidate is the empty string,
and the relaxation loop skips it without issuing an external call — with an
all-empty oracle only 4 calls are made for the 5 candidates, not one call
per candidate. -/
theorem C5_counterexample :
    (pubmed_searchT ("?".toList) (fun _ => [])).2
      = ["?".toList, "?".toList, "?".toList, "?".toList]
    ∧ mkCandidates (pyStrip ("?".toList))
      = ["?".toList, "?".toList, "?".toList, [], "?".toList]
    ∧ (pubmed_searchT ("?".toList) (fun _ => [])).2.length
        ≠ (mkCandidates (pyStrip ("?".toList))).length
    ∧ (pubmed_searchT ("?".toList) (fun _ => [])).1 = [] := by
  decide

/-- Claim C5 (amended): for every ordered candidate sequence and search
oracle, the relaxation loop issues one external call per candidate whose
stripped text is non-empty — blank candidates are skipped without a call —
in order, stopping after the first candidate whose result list is non-empty;
it returns that first successful candidate's identifier list, and the empty
sequence (not an error) when all candidates are exhausted with zero
results. -/
theorem C5_relaxation (oracle : Str → List Str) (cands : List Str) :
    (searchLoopT oracle cands).2
      = ((cands.map pyStrip).filter (fun t => decide (t ≠ []))).takeWhile
          (fun t => decide (oracle t = []))
        ++ (((cands.map pyStrip).filter (fun t => decide (t ≠ []))).dropWhile
            (fun t => decide (oracle t = []))).take 1
    ∧ (searchLoopT oracle cands).1
      = ((((cands.map pyStrip).filter (fun t => decide (t ≠ []))).dropWhile
          (fun t => decide (oracle t = []))).head?).elim [] oracle := by
  induction cands with
  | nil => exact ⟨rfl, rfl⟩
  | cons t rest ih =>
    simp only [List.map_cons, List.filter_cons]
    by_cases h1 : pyStrip t = []
    · have hd : decide (pyStrip t ≠ []) = false := by simp [h1]
      rw [hd]
      show (searchLoopT oracle (t :: rest)).2 = _ ∧ (searchLoopT oracle (t :: rest)).1 = _
      have hstep : searchLoopT oracle (t :: rest) = searchLoopT oracle rest := by
        simp only [searchLoopT, h1, if_pos]
      rw [hstep]
      exact ih
    · have hd : decide (pyStrip t ≠ []) = true := by simp [h1]
      rw [hd]
      simp only [if_true]
      by_cases h2 : oracle (pyStrip t) = []
      · have hq : decide (oracle (pyStrip t) = []) = true := by simp [h2]
        have hstep : searchLoopT oracle (t :: rest)
            = ((searchLoopT oracle rest).1, pyStrip t :: (searchLoopT oracle rest).2) := by
          simp [searchLoopT, h1, h2]
        rw [hstep, List.takeWhile_cons, hq, List.dropWhile_cons, hq]
        simp only [if_true]
        exact ⟨by rw [List.cons_append, ih.1], ih.2⟩
      · have hq : decide (oracle (pyStrip t) = []) = false := by simp [h2]
        have hstep : searchLoopT oracle (t :: rest)
            = (oracle (pyStrip t), [pyStrip t]) := by
          simp [searchLoopT, h1, h2]
        rw [hstep, List.takeWhile_cons, hq, List.dropWhile_cons, hq]
        simp

/- ------------------ Claim C6 ------------------ -/

/-- Claim C6: citation extraction returns the `\b\d{7,8}\b` matches of the
answer text de-duplicated preserving first occurrence: on the concrete text
containing "12345678" twice and "123" once it returns exactly ["12345678"];
in general the result has no duplicates, its members are exactly the matched
7-8-digit runs, and it is a sublist of the match list, preserving the order
of first occurrences. -/
theorem C6_citation_extraction :
    pmids_in_answer ("See 12345678 and 12345678; also 123.".toList)
      = ["12345678".toList]
    ∧ (∀ s : Str, (pmids_in_answer s).Nodup)
    ∧ (∀ s x : Str, x ∈ pmids_in_answer s ↔ x ∈ findall78 s)
    ∧ (∀ s : Str, List.Sublist (pmids_in_answer s) (findall78 s)) := by
  refine ⟨by decide, fun s => dedupeAux_nodup [] _, fun s x => ?_,
    fun s => dedupeAux_sublist [] _⟩
  show x ∈ dedupeAux [] (findall78 s) ↔ _
  rw [mem_dedupeAux]
  simp

/- ------------------ Claim C7 ------------------ -/

/-- Claim C7: for every identifier list and summary-response payload, the
identifiers of the ArticleSummary records returned by pubmed_summaries are
exactly the input identifiers found in the response, in the same relative
order — a sublist of the input; identifiers absent from the response payload
are dropped with no placeholder synthesized. -/
theorem C7_summary_subset (pmids : List Str) (resp : Str → Option SummaryItem) :
    (pubmed_summaries pmids resp).map (fun s => s.pmid)
      = pmids.filter (fun p => (resp p).isSome)
    ∧ List.Sublist ((pubmed_summaries pmids resp).map (fun s => s.pmid)) pmids := by
  have hmain : (pubmed_summaries pmids resp).map (fun s => s.pmid)
      = pmids.filter (fun p => (resp p).isSome) := by
    rw [pubmed_summaries]
    split
    case isTrue hp => rw [hp]; rfl
    case isFalse hp => exact filterMap_mkArticleSummary_pmids resp pmids
  exact ⟨hmain, hmain ▸ List.filter_sublist pmids⟩

/- ------------------ Claim C9 ------------------ -/

/-- Claim C9: for every turn in which a retrieval call (search, summary or
abstract fetch) or the completion call fails, the transcript after the turn
is exactly the prior transcript with the user's question appended: the
question was already recorded before the failing call, no assistant reply is
appended for the turn, and the previously accumulated entries are unchanged
— the error does not corrupt transcript state. -/
theorem C9_transcript_on_failure (messages : List ChatMsg) (prompt : Str)
    (retmax : Nat) (include_abstracts : Bool)
    (searchSvc : Str → Except Unit (List Str))
    (summSvc : List Str → Except Unit (Str → Option SummaryItem))
    (absSvc : List Str → Except Unit (List PMArticle))
    (genSvc : List ChatMsg → Str → Str → List Str → Except Unit Str)
    (hfail : (mainTurn messages prompt retmax include_abstracts
        searchSvc summSvc absSvc genSvc).2 = TurnOutcome.uncaughtError
      ∨ (mainTurn messages prompt retmax include_abstracts
        searchSvc summSvc absSvc genSvc).2 = TurnOutcome.shownError) :
    (mainTurn messages prompt retmax include_abstracts
        searchSvc summSvc absSvc genSvc).1
      = messages ++ [⟨"user".toList, prompt⟩] := by
  revert hfail
  simp only [mainTurn]
  split
  · intro _; rfl
  · split
    · intro _; rfl
    · split
      · intro _; rfl
      · split
        · intro _; rfl
        · intro hfail
          rcases hfail with h | h <;> simp at h

/-- Witness for the Claim C9 theorem: a turn whose search call raises; the
transcript afterwards is exactly the user's question. -/
theorem C9_witness :
    ((mainTurn [] ("hi".toList) 5 false (fun _ => .error ())
        (fun _ => .ok (fun _ => none)) (fun _ => .ok [])
        (fun _ _ _ _ => .ok ("x".toList))).2 = TurnOutcome.uncaughtError
      ∨ (mainTurn [] ("hi".toList) 5 false (fun _ => .error ())
        (fun _ => .ok (fun _ => none)) (fun _ => .ok [])
        (fun _ _ _ _ => .ok ("x".toList))).2 = TurnOutcome.shownError)
    ∧ (mainTurn [] ("hi".toList) 5 false (fun _ => .error ())
        (fun _ => .ok (fun _ => none)) (fun _ => .ok [])
        (fun _ _ _ _ => .ok ("x".toList))).1
      = [] ++ [⟨"user".toList, "hi".toList⟩] :=
  ⟨Or.inl rfl,
   C9_transcript_on_failure [] ("hi".toList) 5 false (fun _ => .error ())
     (fun _ => .ok (fun _ => none)) (fun _ => .ok [])
     (fun _ _ _ _ => .ok ("x".toList)) (Or.inl rfl)⟩

/- ------------------ Claim C10 ------------------ -/

/-- Claim C10: a maximal digit run of length 9 or more yields no extracted
citation at all: extraction on "PMID 123456789 end" returns the empty list —
neither the full run nor a truncated 7- or 8-digit prefix of it is
extracted; in general every extracted citation is a maximal word-character
run of the text consisting of exactly 7 or 8 digits, which a run of length
9 or more never satisfies. -/
theorem C10_long_runs_excluded :
    pmids_in_answer ("PMID 123456789 end".toList) = []
    ∧ "1234567".toList ∉ pmids_in_answer ("PMID 123456789 end".toList)
    ∧ "12345678".toList ∉ pmids_in_answer ("PMID 123456789 end".toList)
    ∧ (∀ s x : Str, x ∈ pmids_in_answer s →
        x ∈ wordRuns s ∧ (x.length = 7 ∨ x.length = 8)
          ∧ ∀ c ∈ x, c.isDigit = true) := by
  refine ⟨by decide, by decide, by decide, fun s x hx => ?_⟩
  have hx' : x ∈ findall78 s := (mem_dedupeAux.1 hx).1
  obtain ⟨hw, hcond⟩ := List.mem_filter.1 hx'
  simp only [Bool.and_eq_true, Bool.or_eq_true, beq_iff_eq, List.all_eq_true] at hcond
  obtain ⟨hlen, hdig⟩ := hcond
  exact ⟨hw, hlen, hdig⟩

/-- Witness for the Claim C10 theorem's general clause at the text
"ok 1234567": the extracted citation "1234567" is a 7-digit maximal
word-character run. -/
theorem C10_witness :
    ("1234567".toList ∈ pmids_in_answer ("ok 1234567".toList))
    ∧ ("1234567".toList ∈ wordRuns ("ok 1234567".toList)
        ∧ (("1234567".toList).length = 7 ∨ ("1234567".toList).length = 8)
        ∧ ∀ c ∈ "1234567".toList, c.isDigit = true) :=
  ⟨by decide,
   C10_long_runs_excluded.2.2.2 ("ok 1234567".toList) ("1234567".toList) (by decide)⟩
